import Mathlib

/-!
Verification of the normalize → aggregate → upsert pipeline of the Magic
repository (`src/scryfall.py`, with the download step shared with
`src/get_scryfall.py`).

Shallow embedding notes:
* A pandas cell that may be null/NaN is modelled as `Option`.
* The `colors` cell is dynamically typed in Python (`flatten_list` branches on
  `isinstance(color_list, list)` and `pd.isna`); it is modelled by the
  inductive `ColorsVal` with a case per runtime shape the function can meet:
  a (nested) list, a pandas null, or a string (a string is iterated
  character-by-character by the `for` comprehensions, exactly as in Python).
* Python's `set()` has no specified iteration order; `pyset` fixes one
  admissible deterministic order (dedup keeping, for each value, its last
  occurrence position).  No claim below depends on the chosen order.
* `", ".join(...)` is `pyJoin`.
* `cmc` is delivered as a float that is always integral and non-negative
  (spec §3), so the cell is modelled as `Option Nat`; Python's `int(x)` is
  then the identity on the integral value.
-/

/-- One admissible iteration order of a Python `set` built from a list:
duplicates removed, order deterministic.  Models `set(color_list)` and
`.agg(set)`. -/
def pyset : List String → List String
  | [] => []
  | x :: xs => if x ∈ pyset xs then pyset xs else x :: pyset xs

/-- Python's `", ".join(l)`. -/
def pyJoin : List String → String
  | [] => ""
  | [x] => x
  | x :: y :: xs => x ++ ", " ++ pyJoin (y :: xs)

/-- Runtime shapes the `colors` cell can take when handed to
`flatten_list`: a list of lists of color-code strings, a pandas null, or a
plain string (the shape produced by a previous flattening). -/
inductive ColorsVal where
  | pylist : List (List String) → ColorsVal
  | na : ColorsVal
  | pystr : String → ColorsVal
deriving DecidableEq, Repr

/-- `flatten_list` from `src/scryfall.py` (lines 124-143).

* an empty list, or a pandas null, returns `""`;
* a (nested) list is flattened, each element passed through `str` (identity
  on the strings present here; the `pd.notna(element)` guard is `True` for
  every string), deduplicated by `set`, and joined with `", "`;
* a string falls through both guards (`isinstance(s, list)` is `False`,
  `pd.isna(s)` is `False`) and is iterated: the outer `for` yields its
  characters as one-character strings, the inner `for` yields each such
  character again, so the element list is the list of the string's
  characters. -/
def flatten_list : ColorsVal → String
  | .pylist [] => ""
  | .na => ""
  | .pylist (l :: ls) => pyJoin (pyset ((l :: ls).foldr (· ++ ·) []))
  | .pystr s => pyJoin (pyset (s.toList.map String.singleton))

/-- The `cmc` lambda of `read_data` (line 156):
`lambda x: str(int(x)) if pd.notna(x) else pd.NA`.  The float is always
integral and non-negative, so `int(x)` is the integer itself. -/
def cmcClean (x : Option Nat) : Option String :=
  x.map (fun n => toString n)

/-- `df.fillna("")` on one cell. -/
def fillna (x : Option String) : String := x.getD ""

/-- A raw input record as pandas sees it after `df[keep_cols]`: each kept
column's cell, nullable cells as `Option`/`ColorsVal`.  A record that lacks a
key in the JSON gets a null (`none`) cell in the DataFrame. -/
structure RawRecord where
  name : Option String
  set_name : Option String
  rarity : Option String
  colors : ColorsVal
  cmc : Option Nat
  type_line : Option String
deriving DecidableEq, Repr

/-- A record after the per-column cleaning and `fillna("")`: every cell a
plain string. -/
structure CleanRecord where
  name : String
  set_name : String
  rarity : String
  colors : String
  cmc : String
  type_line : String
deriving DecidableEq, Repr

/-- The per-record part of `read_data`: flatten `colors`, stringify `cmc`,
then `fillna("")` on every cell. -/
def cleanRecord (r : RawRecord) : CleanRecord where
  name := fillna r.name
  set_name := fillna r.set_name
  rarity := fillna r.rarity
  colors := flatten_list r.colors
  cmc := fillna (cmcClean r.cmc)
  type_line := fillna r.type_line

/-- The non-key columns of the table (`keep_cols[1:]`). -/
inductive Col where
  | set_name | rarity | colors | cmc | type_line
deriving DecidableEq, Repr

/-- Read a non-key column of a cleaned record. -/
def recCol (r : CleanRecord) : Col → String
  | .set_name => r.set_name
  | .rarity => r.rarity
  | .colors => r.colors
  | .cmc => r.cmc
  | .type_line => r.type_line

/-- One aggregated row, keyed by `name` (the persisted unit). -/
structure CatalogEntry where
  name : String
  set_name : String
  rarity : String
  colors : String
  cmc : String
  type_line : String
deriving DecidableEq, Repr

/-- Read a non-key column of a catalog entry. -/
def entryCol (e : CatalogEntry) : Col → String
  | .set_name => e.set_name
  | .rarity => e.rarity
  | .colors => e.colors
  | .cmc => e.cmc
  | .type_line => e.type_line

/-- `df.groupby("name").agg(set)` for one name and one column: the set of
the column's values across the group, in `pyset` order. -/
def groupValues (rs : List CleanRecord) (n : String) (c : Col) : List String :=
  pyset ((rs.filter (fun r => r.name == n)).map (fun r => recCol r c))

/-- `", ".join([element for element in x if element != ""])` (line 162). -/
def joinNonEmpty (vals : List String) : String :=
  pyJoin (vals.filter (fun v => v != ""))

/-- `read_data` from `src/scryfall.py` (lines 146-164), after the JSON
parse: clean each record (flatten `colors`, stringify `cmc`, `fillna("")`),
group by `name`, aggregate each non-key column to the set of its values,
and join each set's non-empty members with `", "`.  Group order is the
`pyset` order of the cleaned names (pandas sorts groups; no claim depends
on the order of the emitted entries).  `mkEntry` builds the aggregated
entry of one group. -/
def mkEntry (cleaned : List CleanRecord) (n : String) : CatalogEntry where
  name := n
  set_name := joinNonEmpty (groupValues cleaned n .set_name)
  rarity := joinNonEmpty (groupValues cleaned n .rarity)
  colors := joinNonEmpty (groupValues cleaned n .colors)
  cmc := joinNonEmpty (groupValues cleaned n .cmc)
  type_line := joinNonEmpty (groupValues cleaned n .type_line)

def read_data (rs : List RawRecord) : List CatalogEntry :=
  (pyset ((rs.map cleanRecord).map (fun r => r.name))).map
    (mkEntry (rs.map cleanRecord))

/-!
## Persister (`update_db`, `src/scryfall.py` lines 167-208)

The destination table `scryfall` has primary key `name` and the text columns
`set_name`, `rarity`, `colors`, `cmc`, `type_line`, `deck`.  A row's `deck`
cell is nullable and has no default, so it is modelled as `Option String`
(`none` is SQL NULL).

Per aggregated row the code attempts `INSERT`; a primary-key conflict raises
`IntegrityError`, which is caught and turned into
`UPDATE ... WHERE name = row["name"]` with the row's columns as the SET
clause — the row dict has no `deck` key, so `deck` is neither inserted nor
updated.  Any other exception is logged and re-raised, which leaves the
`with engine.connect()` block without reaching the single
`connection.commit()` after the loop, so the connection closes and the
transaction of the whole run is rolled back.
-/

/-- One persisted row of the `scryfall` table.  `deck` is `none` when the
column is SQL NULL. -/
structure DBRow where
  name : String
  set_name : String
  rarity : String
  colors : String
  cmc : String
  type_line : String
  deck : Option String
deriving DecidableEq, Repr

/-- The row the `INSERT` creates for an entry: the entry's columns, no
`deck` value (the column stays NULL). -/
def insertRow (e : CatalogEntry) : DBRow :=
  ⟨e.name, e.set_name, e.rarity, e.colors, e.cmc, e.type_line, none⟩

/-- `UPDATE scryfall SET name=..., set_name=..., ... WHERE name = e.name`
applied to one stored row: a row whose name matches gets the entry's
columns (including `name`, set to the same value) and keeps its `deck`;
other rows are untouched. -/
def applyUpdate (e : CatalogEntry) (w : DBRow) : DBRow :=
  if w.name == e.name then
    { name := e.name, set_name := e.set_name, rarity := e.rarity,
      colors := e.colors, cmc := e.cmc, type_line := e.type_line,
      deck := w.deck }
  else w

/-- Whether the table already holds a row with the given primary key (the
condition under which the `INSERT` raises `IntegrityError`). -/
def hasName (t : List DBRow) (n : String) : Bool :=
  t.any (fun w => w.name == n)

/-- One iteration of the loop body of `update_db`: try to insert; on a
primary-key conflict update the matching row(s) instead. -/
def step (t : List DBRow) (e : CatalogEntry) : List DBRow :=
  if hasName t e.name then t.map (applyUpdate e) else t ++ [insertRow e]

/-- `update_db` on a run in which the storage layer raises no fatal error:
the loop over the rows followed by the commit. -/
def update_db (t : List DBRow) (es : List CatalogEntry) : List DBRow :=
  es.foldl step t

/-- One loop iteration when the storage layer may fail: `fatal e = true`
models the `except Exception` branch (any storage error other than the
caught `IntegrityError`) being hit while reconciling `e`; the exception is
re-raised, aborting the loop. -/
def stepF (fatal : CatalogEntry → Bool) (t : List DBRow) (e : CatalogEntry) :
    Except Unit (List DBRow) :=
  if fatal e then .error () else .ok (step t e)

/-- The loop of `update_db` under a possible fatal storage error. -/
def runRowsF (fatal : CatalogEntry → Bool) (t : List DBRow)
    (es : List CatalogEntry) : Except Unit (List DBRow) :=
  es.foldlM (stepF fatal) t

/-- The durable table state after `update_db` under a possible fatal
storage error: `connection.commit()` runs only when the loop finishes, so
on a fatal error the transaction is rolled back and the table keeps its
prior state. -/
def update_dbF (fatal : CatalogEntry → Bool) (t : List DBRow)
    (es : List CatalogEntry) : List DBRow :=
  match runRowsF fatal t es with
  | .ok t2 => t2
  | .error _ => t

/-!
## Download step (`get_data`, `src/scryfall.py` lines 93-121; the same
logic is `main` in `src/get_scryfall.py` lines 70-96)
-/

/-- One descriptor of the bulk-data metadata document: its `type` tag and
its `download_uri`. -/
structure BulkEntry where
  type : String
  download_uri : String
deriving DecidableEq, Repr

/-- The exception hierarchy of `src/scryfall.py` lines 53-78, as a tagged
error with the payload each constructor formats into its message. -/
inductive BulkDataError where
  | fetchData (status_code : Nat)
  | download (status_code : Nat)
  | dataTypeNotFound (data_type : String)
deriving DecidableEq, Repr

/-- The user-visible message each exception class logs. -/
def errorMessage : BulkDataError → String
  | .fetchData status_code => s!"Failed to fetch bulk data. Status code: {status_code}"
  | .download status_code => s!"Failed to download the file. Status code: {status_code}"
  | .dataTypeNotFound data_type => s!"Data type '{data_type}' not found in bulk data."

/-- The `file_url` scan of `get_data` (lines 104-108): the `download_uri`
of the first descriptor whose `type` matches, else Python's `None`. -/
def findFileUrl (data : List BulkEntry) (data_type : String) : Option String :=
  (data.find? (fun b => b.type == data_type)).map (fun b => b.download_uri)

/-- `get_data` (lines 93-121), with its two HTTP round-trips abstracted as
the statuses they return: `metaStatus` is `response.status_code` of the
metadata request and `get url` is `file_response.status_code` of the
download of `url`.  On success it returns the downloaded URL (the file
write and name are I/O, outside the model).  Faithful details: `if not
file_url` treats both `None` and the empty string as missing, and the
`DownloadError` is raised with `response.status_code` — the metadata
request's status — not `file_response.status_code`. -/
def get_data (metaStatus : Nat) (data : List BulkEntry) (data_type : String)
    (get : String → Nat) : Except BulkDataError String :=
  if metaStatus ≠ 200 then .error (.fetchData metaStatus)
  else
    match findFileUrl data data_type with
    | none => .error (.dataTypeNotFound data_type)
    | some file_url =>
      if file_url = "" then .error (.dataTypeNotFound data_type)
      else if get file_url ≠ 200 then .error (.download metaStatus)
      else .ok file_url

/-!
## Infrastructure lemmas
-/

theorem mem_pyset {a : String} {l : List String} : a ∈ pyset l ↔ a ∈ l := by
  induction l generalizing a with
  | nil => simp [pyset]
  | cons x xs ih =>
    by_cases hx : x ∈ pyset xs
    · rw [pyset, if_pos hx]
      rw [List.mem_cons]
      exact ⟨fun h => Or.inr (ih.mp h),
        fun h => h.elim (fun h1 => h1.symm ▸ hx) (fun h1 => ih.mpr h1)⟩
    · rw [pyset, if_neg hx]
      simp [List.mem_cons, ih]

theorem pyset_nodup (l : List String) : (pyset l).Nodup := by
  induction l with
  | nil => exact List.nodup_nil
  | cons x xs ih =>
    by_cases hx : x ∈ pyset xs
    · simpa [pyset, if_pos hx] using ih
    · simpa [pyset, if_neg hx] using ⟨hx, ih⟩

theorem pyset_length (l : List String) : (pyset l).length = l.toFinset.card := by
  have hset : (pyset l).toFinset = l.toFinset := by
    ext a
    simp [List.mem_toFinset, mem_pyset]
  calc (pyset l).length = (pyset l).toFinset.card :=
        (List.toFinset_card_of_nodup (pyset_nodup l)).symm
    _ = l.toFinset.card := by rw [hset]

theorem pyJoin_cons_ne_empty (x : String) (xs : List String) (hx : x ≠ "") :
    pyJoin (x :: xs) ≠ "" := by
  match xs with
  | [] => simpa [pyJoin] using hx
  | y :: ys =>
    intro h
    have hlen : x.length + ", ".length + (pyJoin (y :: ys)).length = 0 := by
      rw [← String.length_append, ← String.length_append,
        show x ++ ", " ++ pyJoin (y :: ys) = pyJoin (x :: y :: ys) from rfl, h]
      rfl
    rw [show (", ").length = 2 from rfl] at hlen
    omega

theorem joinNonEmpty_eq_empty_iff (vals : List String) :
    joinNonEmpty vals = "" ↔ ∀ v ∈ vals, v = "" := by
  constructor
  · intro h v hv
    by_contra hne
    have hmem : v ∈ vals.filter (fun v => v != "") := by
      simp [List.mem_filter, hv, hne]
    obtain ⟨x, xs, hfx⟩ : ∃ x xs, vals.filter (fun v => v != "") = x :: xs := by
      match hf : vals.filter (fun v => v != "") with
      | [] => rw [hf] at hmem; simp at hmem
      | x :: xs => exact ⟨x, xs, rfl⟩
    have hxne : x ≠ "" := by
      have := List.mem_filter.mp (hfx ▸ List.mem_cons_self x xs)
      simpa using this.2
    exact pyJoin_cons_ne_empty x xs hxne (by rw [joinNonEmpty, hfx] at h; exact h)
  · intro h
    have : vals.filter (fun v => v != "") = [] := by
      rw [List.filter_eq_nil_iff]
      intro v hv
      simp [h v hv]
    rw [joinNonEmpty, this]
    rfl

/-!
## Claims about the Normalizer
-/

/-- C8 — confirmed.  CMC normalization (the `cmc` lambda of `read_data`
followed by `fillna("")`) maps a null cmc to the empty string and maps a
non-negative integral cmc value `n` (delivered as the float `n.0`, on which
`int` is the identity) to the decimal string of `n`, with no fractional
part: e.g. `1.0` becomes `"1"`. -/
theorem cmc_normalization :
    fillna (cmcClean none) = "" ∧
    (∀ n : Nat, fillna (cmcClean (some n)) = toString n) ∧
    fillna (cmcClean (some 1)) = "1" :=
  ⟨rfl, fun _ => rfl, rfl⟩

/-- C6 — counterexample.  `"R, G"` is an already-flat, already-deduplicated
comma-separated color string (it is the join of the duplicate-free member
list `["R", "G"]`), yet re-applying `flatten_list` to it does not yield the
same string up to reordering of its comma-separated members: the string is
iterated character-by-character, so the comma and the space become members,
and no reordering of `["R", "G"]` joins to the re-flattened result. -/
theorem perm_two {α : Type} {l : List α} {a b : α} (hp : l.Perm [a, b]) :
    l = [a, b] ∨ l = [b, a] := by
  obtain _ | ⟨u, _ | ⟨v, _ | ⟨w, t⟩⟩⟩ := l
  · have := hp.length_eq
    simp at this
  · have := hp.length_eq
    simp at this
  · have hu : u = a ∨ u = b := by simpa using hp.subset (List.mem_cons_self u [v])
    rcases hu with hu | hu
    · subst hu
      left
      have hv : [v].Perm [b] := hp.cons_inv
      rw [List.perm_singleton.mp hv]
    · subst hu
      right
      have hswap : (u :: [v]).Perm (u :: [a]) := hp.trans (List.Perm.swap u a [])
      rw [List.perm_singleton.mp hswap.cons_inv]
  · have := hp.length_eq
    simp at this

theorem flatten_reflatten_cex :
    List.Nodup ["R", "G"] ∧ pyJoin ["R", "G"] = "R, G" ∧
    flatten_list (.pystr "R, G") = "R, ,,  , G" ∧
    ¬ ∃ l, l.Perm ["R", "G"] ∧ pyJoin l = flatten_list (.pystr "R, G") := by
  refine ⟨by decide, by decide, by decide, ?_⟩
  rintro ⟨l, hperm, hjoin⟩
  rcases perm_two hperm with h | h <;> subst h <;> revert hjoin <;> decide

/-- C6 — amended.  Re-flattening an already-flat, already-deduplicated
comma-separated color string yields the same string only when the string
has at most one single-character member (the empty string, or one color
code): then character-wise iteration reproduces it.  With two or more
members, the separator characters become members and the string is not
preserved (see the counterexample). -/
theorem flatten_reflatten_short (s : String) (h : s.length ≤ 1) :
    flatten_list (.pystr s) = s := by
  obtain ⟨data⟩ := s
  match data with
  | [] => rfl
  | [c] => rfl
  | c1 :: c2 :: rest => simp [String.length] at h

/-- C6 — witness for the amended theorem, at the single-color string `"R"`. -/
theorem flatten_reflatten_short_witness :
    "R".length ≤ 1 ∧ flatten_list (.pystr "R") = "R" :=
  ⟨by decide, flatten_reflatten_short "R" (by decide)⟩

/-!
## Claims about the Aggregator
-/

theorem mkEntry_name (cleaned : List CleanRecord) (n : String) :
    (mkEntry cleaned n).name = n := rfl

theorem entryCol_mkEntry (cleaned : List CleanRecord) (n : String) (c : Col) :
    entryCol (mkEntry cleaned n) c = joinNonEmpty (groupValues cleaned n c) := by
  cases c <;> rfl

/-- A raw record whose JSON object lacks the `name` key: the DataFrame cell
is null. -/
def noNameRec : RawRecord :=
  ⟨none, some "A", some "common", .pylist [["R"]], some 1, some "Instant"⟩

/-- C3 — counterexample.  A snapshot containing a record that lacks the
`name` key does NOT abort: the code has no validation step (and no
ValidationFailure-like exception class), `fillna("")` turns the null name
into the empty string before `groupby("name")`, and the record is
aggregated under the empty-string placeholder name. -/
theorem missing_name_not_rejected_cex :
    noNameRec.name = none ∧
    read_data [noNameRec] =
      [{ name := "", set_name := "A", rarity := "common", colors := "R",
         cmc := "1", type_line := "Instant" }] ∧
    ∃ e ∈ read_data [noNameRec], e.name = "" := by
  decide

/-- C3 — amended.  A record lacking the `name` key is neither rejected nor
silently dropped: the run proceeds, the record's null name is filled with
`""`, and the snapshot's aggregation contains an entry under the
empty-string placeholder name. -/
theorem missing_name_placeholder (rs : List RawRecord) (r : RawRecord)
    (hr : r ∈ rs) (hname : r.name = none) :
    ∃ e ∈ read_data rs, e.name = "" := by
  have h1 : (cleanRecord r).name = "" := by
    simp [cleanRecord, fillna, hname]
  have h2 : "" ∈ (rs.map cleanRecord).map (fun x => x.name) := by
    rw [← h1]
    exact List.mem_map_of_mem _ (List.mem_map_of_mem _ hr)
  have h3 : "" ∈ pyset ((rs.map cleanRecord).map (fun x => x.name)) :=
    mem_pyset.mpr h2
  exact ⟨mkEntry (rs.map cleanRecord) "", List.mem_map_of_mem _ h3, rfl⟩

/-- C3 — witness for the amended theorem. -/
theorem missing_name_placeholder_witness :
    noNameRec ∈ [noNameRec] ∧ noNameRec.name = none ∧
    ∃ e ∈ read_data [noNameRec], e.name = "" :=
  ⟨List.mem_cons_self _ _, rfl,
    missing_name_placeholder [noNameRec] noNameRec (List.mem_cons_self _ _) rfl⟩

/-- C5 — confirmed.  The Aggregator emits exactly one CatalogEntry per
distinct (cleaned) `name` value, and for every input record and non-key
column, the record's non-empty cleaned value for that column appears as a
member of the list whose `", "`-join is that record's entry's column (the
deduplicated union of the group's values, with empty members omitted from
the join). -/
theorem aggregator_complete (rs : List RawRecord) :
    (read_data rs).length = ((rs.map cleanRecord).map (fun r => r.name)).toFinset.card ∧
    ∀ r ∈ rs, ∀ c : Col,
      ∃ e ∈ read_data rs, e.name = (cleanRecord r).name ∧
        entryCol e c = joinNonEmpty (groupValues (rs.map cleanRecord) (cleanRecord r).name c) ∧
        (recCol (cleanRecord r) c ≠ "" →
          recCol (cleanRecord r) c ∈
            (groupValues (rs.map cleanRecord) (cleanRecord r).name c).filter
              (fun v => v != "")) := by
  constructor
  · rw [read_data, List.length_map, pyset_length]
  · intro r hr c
    have hcl : cleanRecord r ∈ rs.map cleanRecord := List.mem_map_of_mem _ hr
    have hn : (cleanRecord r).name ∈ pyset ((rs.map cleanRecord).map (fun x => x.name)) :=
      mem_pyset.mpr (List.mem_map_of_mem _ hcl)
    refine ⟨mkEntry (rs.map cleanRecord) (cleanRecord r).name,
      List.mem_map_of_mem _ hn, rfl, entryCol_mkEntry _ _ _, ?_⟩
    intro hne
    have hmem : recCol (cleanRecord r) c ∈
        groupValues (rs.map cleanRecord) (cleanRecord r).name c := by
      rw [groupValues]
      refine mem_pyset.mpr (List.mem_map_of_mem _ ?_)
      rw [List.mem_filter]
      exact ⟨hcl, by simp⟩
    rw [List.mem_filter]
    exact ⟨hmem, by simpa using hne⟩

/-- Input records of the end-to-end scenario of the spec (§8). -/
def bolt1 : RawRecord :=
  ⟨some "Bolt", some "A", some "common", .pylist [["R"]], some 1, some "Instant"⟩

def bolt2 : RawRecord :=
  ⟨some "Bolt", some "B", some "uncommon", .pylist [["R"]], some 1, some "Instant"⟩

/-- C5 — witness, on the spec's two-record Bolt snapshot. -/
theorem aggregator_complete_witness :
    (read_data [bolt1, bolt2]).length =
      (([bolt1, bolt2].map cleanRecord).map (fun r => r.name)).toFinset.card ∧
    (∃ e ∈ read_data [bolt1, bolt2], e.name = (cleanRecord bolt1).name ∧
      entryCol e .set_name =
        joinNonEmpty (groupValues ([bolt1, bolt2].map cleanRecord)
          (cleanRecord bolt1).name .set_name) ∧
      (recCol (cleanRecord bolt1) .set_name ≠ "" →
        recCol (cleanRecord bolt1) .set_name ∈
          (groupValues ([bolt1, bolt2].map cleanRecord)
            (cleanRecord bolt1).name .set_name).filter (fun v => v != ""))) ∧
    read_data [bolt1, bolt2] =
      [{ name := "Bolt", set_name := "A, B", rarity := "common, uncommon",
         colors := "R", cmc := "1", type_line := "Instant" }] :=
  ⟨(aggregator_complete [bolt1, bolt2]).1,
    (aggregator_complete [bolt1, bolt2]).2 bolt1 (List.mem_cons_self _ _) .set_name,
    by decide⟩

/-- C7 — confirmed.  For every group (every emitted entry) and every
non-key column, the rendered string is the `", "`-join of the group's
value set with empty-string members omitted (so an empty member never
pollutes the join), and it renders as the empty string exactly when every
member of the group's value set is empty. -/
theorem agg_omits_empty_members (rs : List RawRecord) (c : Col) (e : CatalogEntry)
    (he : e ∈ read_data rs) :
    entryCol e c = joinNonEmpty (groupValues (rs.map cleanRecord) e.name c) ∧
    (∀ v ∈ (groupValues (rs.map cleanRecord) e.name c).filter (fun v => v != ""),
      v ≠ "") ∧
    (entryCol e c = "" ↔ ∀ v ∈ groupValues (rs.map cleanRecord) e.name c, v = "") := by
  rw [read_data] at he
  obtain ⟨n, _, heq⟩ := List.mem_map.mp he
  subst heq
  refine ⟨entryCol_mkEntry _ _ _, ?_, ?_⟩
  · intro v hv
    have := (List.mem_filter.mp hv).2
    simpa using this
  · rw [entryCol_mkEntry]
    exact joinNonEmpty_eq_empty_iff _

/-- A group where one record supplies `rarity = "rare"` and a sibling
record supplies `rarity = ""`. -/
def rareRec : RawRecord :=
  ⟨some "Shock", some "A", some "rare", .pylist [["R"]], some 1, some "Instant"⟩

def noRarityRec : RawRecord :=
  ⟨some "Shock", some "B", some "", .pylist [["R"]], some 1, some "Instant"⟩

/-- C7 — witness: the rare/empty group renders its rarity as `"rare"`,
never `"rare, "`. -/
theorem agg_omits_empty_members_witness :
    (mkEntry ([rareRec, noRarityRec].map cleanRecord) "Shock"
        ∈ read_data [rareRec, noRarityRec]) ∧
    (entryCol (mkEntry ([rareRec, noRarityRec].map cleanRecord) "Shock") .rarity =
        joinNonEmpty (groupValues ([rareRec, noRarityRec].map cleanRecord)
          (mkEntry ([rareRec, noRarityRec].map cleanRecord) "Shock").name .rarity) ∧
      (∀ v ∈ (groupValues ([rareRec, noRarityRec].map cleanRecord)
          (mkEntry ([rareRec, noRarityRec].map cleanRecord) "Shock").name .rarity).filter
            (fun v => v != ""), v ≠ "") ∧
      (entryCol (mkEntry ([rareRec, noRarityRec].map cleanRecord) "Shock") .rarity = "" ↔
        ∀ v ∈ groupValues ([rareRec, noRarityRec].map cleanRecord)
          (mkEntry ([rareRec, noRarityRec].map cleanRecord) "Shock").name .rarity,
          v = "")) ∧
    entryCol (mkEntry ([rareRec, noRarityRec].map cleanRecord) "Shock") .rarity = "rare" :=
  ⟨by decide,
    agg_omits_empty_members [rareRec, noRarityRec] .rarity _ (by decide),
    by decide⟩

/-!
## Claim about the download step
-/

/-- C10 — the code contradicts the claim (code bug).  When the metadata
request succeeds (status 200) and the file-download request returns 404,
the run aborts with a `DownloadError` — but the error is constructed from
`response.status_code`, the metadata request's status, instead of
`file_response.status_code`, so the user-visible message names status 200
rather than the offending 404. -/
theorem download_error_reports_metadata_status :
    get_data 200 [⟨"default_cards", "https://data.scryfall.io/default.json"⟩]
        "default_cards" (fun _ => 404) = .error (.download 200) ∧
    errorMessage (.download 200) = "Failed to download the file. Status code: 200" := by
  exact ⟨rfl, rfl⟩

/-!
## Claims about the Persister
-/

theorem applyUpdate_eq_ite (e : CatalogEntry) (w : DBRow) :
    applyUpdate e w =
      if w.name = e.name then
        ⟨e.name, e.set_name, e.rarity, e.colors, e.cmc, e.type_line, w.deck⟩
      else w := by
  rw [applyUpdate]
  by_cases h : w.name = e.name
  · rw [if_pos (beq_iff_eq.mpr h), if_pos h]
  · rw [if_neg (fun hc => h (beq_iff_eq.mp hc)), if_neg h]

theorem applyUpdate_name (e : CatalogEntry) (w : DBRow) :
    (applyUpdate e w).name = w.name := by
  rw [applyUpdate_eq_ite]
  by_cases h : w.name = e.name
  · rw [if_pos h]
    exact h.symm
  · rw [if_neg h]

theorem applyUpdate_of_ne (e : CatalogEntry) (w : DBRow) (h : w.name ≠ e.name) :
    applyUpdate e w = w := by
  rw [applyUpdate_eq_ite, if_neg h]

theorem applyUpdate_of_eq (e : CatalogEntry) (w : DBRow) (h : w.name = e.name) :
    applyUpdate e w =
      ⟨e.name, e.set_name, e.rarity, e.colors, e.cmc, e.type_line, w.deck⟩ := by
  rw [applyUpdate_eq_ite, if_pos h]

theorem applyUpdate_absorb (e e' : CatalogEntry) (w : DBRow) (h : e'.name = w.name) :
    applyUpdate e' (applyUpdate e w) = applyUpdate e' w := by
  by_cases hw : w.name = e.name
  · rw [applyUpdate_of_eq e w hw]
    rw [applyUpdate_of_eq e' _ (show e.name = e'.name from hw ▸ h.symm)]
    rw [applyUpdate_of_eq e' w (h.symm ▸ rfl)]
  · rw [applyUpdate_of_ne e w hw]

theorem applyUpdate_idem (e : CatalogEntry) (w : DBRow) :
    applyUpdate e (applyUpdate e w) = applyUpdate e w := by
  by_cases hw : w.name = e.name
  · exact applyUpdate_absorb e e w hw.symm
  · rw [applyUpdate_of_ne e w hw, applyUpdate_of_ne e w hw]

theorem applyUpdate_insertRow (e e' : CatalogEntry) (h : e'.name = e.name) :
    applyUpdate e' (insertRow e) = insertRow e' := by
  rw [applyUpdate_of_eq e' (insertRow e) (show (insertRow e).name = e'.name from h.symm)]
  rfl

/-- The rows of a table bearing a given primary-key value. -/
def rowsFor (t : List DBRow) (n : String) : List DBRow :=
  t.filter (fun w => w.name == n)

theorem rowsFor_name {t : List DBRow} {n : String} {w : DBRow}
    (h : w ∈ rowsFor t n) : w.name = n :=
  beq_iff_eq.mp (List.mem_filter.mp h).2

theorem self_mem_rowsFor {t : List DBRow} {w : DBRow} (h : w ∈ t) :
    w ∈ rowsFor t w.name :=
  List.mem_filter.mpr ⟨h, beq_self_eq_true _⟩

theorem hasName_iff_rowsFor (t : List DBRow) (n : String) :
    hasName t n = true ↔ rowsFor t n ≠ [] := by
  rw [hasName, List.any_eq_true]
  constructor
  · rintro ⟨w, hw, hp⟩ hnil
    have hmem : w ∈ rowsFor t n := List.mem_filter.mpr ⟨hw, hp⟩
    rw [hnil] at hmem
    simp at hmem
  · intro hne
    match hfil : rowsFor t n with
    | [] => exact absurd hfil hne
    | w :: ws =>
      have hw : w ∈ rowsFor t n := by
        rw [hfil]
        exact List.mem_cons_self _ _
      exact ⟨w, (List.mem_filter.mp hw).1, (List.mem_filter.mp hw).2⟩

theorem rowsFor_step_ne (t : List DBRow) (e : CatalogEntry) (n : String)
    (h : e.name ≠ n) : rowsFor (step t e) n = rowsFor t n := by
  rw [step]
  by_cases hh : hasName t e.name = true
  · rw [if_pos hh]
    simp only [rowsFor, List.filter_map]
    have h1 : List.filter ((fun w => w.name == n) ∘ applyUpdate e) t
        = List.filter (fun w => w.name == n) t := by
      apply List.filter_congr
      intro w _
      simp [Function.comp, applyUpdate_name]
    rw [h1]
    have h2 : ∀ w ∈ List.filter (fun w => w.name == n) t, applyUpdate e w = w := by
      intro w hw
      have hwn : w.name = n := beq_iff_eq.mp (List.mem_filter.mp hw).2
      exact applyUpdate_of_ne e w (by rw [hwn]; exact fun hc => h hc.symm)
    rw [List.map_congr_left h2]
    exact List.map_id' _
  · rw [if_neg hh]
    simp only [rowsFor, List.filter_append]
    have h3 : List.filter (fun w => w.name == n) [insertRow e] = [] := by
      simp only [List.filter_cons, List.filter_nil]
      rw [if_neg]
      simp [insertRow, h]
    rw [h3, List.append_nil]

theorem rowsFor_step_self (t : List DBRow) (e : CatalogEntry) :
    rowsFor (step t e) e.name =
      if rowsFor t e.name = [] then [insertRow e]
      else (rowsFor t e.name).map (applyUpdate e) := by
  rw [step]
  by_cases hh : hasName t e.name = true
  · have hne : rowsFor t e.name ≠ [] := (hasName_iff_rowsFor t e.name).mp hh
    rw [if_pos hh, if_neg hne]
    simp only [rowsFor, List.filter_map]
    have h1 : List.filter ((fun w => w.name == e.name) ∘ applyUpdate e) t
        = List.filter (fun w => w.name == e.name) t := by
      apply List.filter_congr
      intro w _
      simp [Function.comp, applyUpdate_name]
    rw [h1]
  · have hnil : rowsFor t e.name = [] := by
      by_contra hc
      exact hh ((hasName_iff_rowsFor t e.name).mpr hc)
    rw [if_neg hh, if_pos hnil]
    simp only [rowsFor] at hnil
    simp only [rowsFor, List.filter_append, hnil, List.nil_append]
    simp [insertRow]

/-- The last entry of the sequence whose name matches: with
try-insert-then-update per row, the last write for a name wins. -/
def lastMatch (es : List CatalogEntry) (n : String) : Option CatalogEntry :=
  (es.filter (fun e => e.name == n)).getLast?

theorem mem_of_getLast? {α : Type} {l : List α} {a : α}
    (h : l.getLast? = some a) : a ∈ l := by
  match l with
  | [] => simp at h
  | x :: xs =>
    rw [List.getLast?_eq_getLast (x :: xs) (List.cons_ne_nil x xs)] at h
    rw [← Option.some.inj h]
    exact List.getLast_mem _

theorem lastMatch_name {es : List CatalogEntry} {n : String} {e' : CatalogEntry}
    (h : lastMatch es n = some e') : e'.name = n := by
  rw [lastMatch] at h
  have hmem := mem_of_getLast? h
  exact beq_iff_eq.mp (List.mem_filter.mp hmem).2

theorem lastMatch_cons_ne {es : List CatalogEntry} {n : String} (e : CatalogEntry)
    (h : e.name ≠ n) : lastMatch (e :: es) n = lastMatch es n := by
  have hb : (e.name == n) = false := beq_eq_false_iff_ne.mpr h
  simp only [lastMatch, List.filter_cons, hb]
  rfl

theorem lastMatch_cons_eq {es : List CatalogEntry} {n : String} (e : CatalogEntry)
    (h : e.name = n) : lastMatch (e :: es) n = some ((lastMatch es n).getD e) := by
  have hb : (e.name == n) = true := beq_iff_eq.mpr h
  simp only [lastMatch, List.filter_cons, hb, if_pos]
  match hfil : es.filter (fun x => x.name == n) with
  | [] =>
    rw [hfil]
    rfl
  | y :: ys =>
    rw [hfil, List.getLast?_cons_cons,
      List.getLast?_eq_getLast (y :: ys) (List.cons_ne_nil y ys)]
    rfl

/-- Characterization of one run: for any name, the final rows bearing it
are the original ones updated by the last matching entry (inserted first if
the name was absent), or untouched if no entry matches. -/
theorem rowsFor_update_db (es : List CatalogEntry) (t : List DBRow) (n : String) :
    rowsFor (update_db t es) n =
      match lastMatch es n with
      | none => rowsFor t n
      | some e' =>
        if rowsFor t n = [] then [insertRow e']
        else (rowsFor t n).map (applyUpdate e') := by
  induction es generalizing t with
  | nil => rfl
  | cons e es ih =>
    show rowsFor (update_db (step t e) es) n = _
    rw [ih (step t e)]
    by_cases hen : e.name = n
    · subst hen
      rw [lastMatch_cons_eq e rfl, rowsFor_step_self t e]
      by_cases hnil : rowsFor t e.name = []
      · rw [if_pos hnil]
        cases hl : lastMatch es e.name with
        | none =>
          show [insertRow e]
            = if rowsFor t e.name = [] then [insertRow e]
              else (rowsFor t e.name).map (applyUpdate e)
          rw [if_pos hnil]
        | some e2 =>
          show [applyUpdate e2 (insertRow e)]
            = if rowsFor t e.name = [] then [insertRow e2]
              else (rowsFor t e.name).map (applyUpdate e2)
          rw [applyUpdate_insertRow e e2 (lastMatch_name hl), if_pos hnil]
      · rw [if_neg hnil]
        cases hl : lastMatch es e.name with
        | none =>
          show (rowsFor t e.name).map (applyUpdate e)
            = if rowsFor t e.name = [] then [insertRow e]
              else (rowsFor t e.name).map (applyUpdate e)
          rw [if_neg hnil]
        | some e2 =>
          show (if (rowsFor t e.name).map (applyUpdate e) = [] then [insertRow e2]
              else ((rowsFor t e.name).map (applyUpdate e)).map (applyUpdate e2))
            = if rowsFor t e.name = [] then [insertRow e2]
              else (rowsFor t e.name).map (applyUpdate e2)
          rw [if_neg (fun hc => hnil (List.map_eq_nil_iff.mp hc)), if_neg hnil, List.map_map]
          apply List.map_congr_left
          intro w hw
          have h1 : e2.name = w.name := by
            rw [lastMatch_name hl, rowsFor_name hw]
          exact applyUpdate_absorb e e2 w h1
    · rw [lastMatch_cons_ne e hen, rowsFor_step_ne t e n hen]

theorem hasName_applyUpdate_map (t : List DBRow) (e : CatalogEntry) (n : String) :
    hasName (t.map (applyUpdate e)) n = hasName t n := by
  rw [hasName, hasName, List.any_map]
  congr 1
  funext w
  simp [Function.comp, applyUpdate_name]

theorem hasName_step (t : List DBRow) (e : CatalogEntry) (n : String) :
    hasName (step t e) n = (hasName t n || (e.name == n)) := by
  rw [step]
  by_cases hh : hasName t e.name = true
  · rw [if_pos hh, hasName_applyUpdate_map]
    by_cases hen : e.name = n
    · subst hen
      rw [hh]
      simp
    · have hb : (e.name == n) = false := beq_eq_false_iff_ne.mpr hen
      rw [hb]
      simp
  · rw [if_neg hh, hasName, hasName, List.any_append]
    simp [insertRow]

theorem hasName_update_db (t : List DBRow) (es : List CatalogEntry) (n : String) :
    hasName (update_db t es) n = (hasName t n || es.any (fun e => e.name == n)) := by
  induction es generalizing t with
  | nil => simp [update_db]
  | cons e es ih =>
    show hasName (update_db (step t e) es) n = _
    rw [ih (step t e), hasName_step]
    simp [List.any_cons, Bool.or_assoc]

/-- The composite effect of the whole run's updates on a single stored
row. -/
def chainUpd (w : DBRow) (es : List CatalogEntry) : DBRow :=
  es.foldl (fun w e => applyUpdate e w) w

theorem chainUpd_eval (es : List CatalogEntry) (w : DBRow) :
    chainUpd w es =
      match lastMatch es w.name with
      | none => w
      | some e' => applyUpdate e' w := by
  induction es generalizing w with
  | nil => rfl
  | cons e es ih =>
    show chainUpd (applyUpdate e w) es = _
    by_cases hen : e.name = w.name
    · rw [ih (applyUpdate e w), applyUpdate_name]
      cases hl : lastMatch es w.name with
      | none =>
        rw [lastMatch_cons_eq e hen, hl]
        rfl
      | some e2 =>
        rw [lastMatch_cons_eq e hen, hl]
        exact applyUpdate_absorb e e2 w (lastMatch_name hl)
    · have hw : w.name ≠ e.name := fun hc => hen hc.symm
      rw [applyUpdate_of_ne e w hw, ih w, lastMatch_cons_ne e hen]

theorem foldl_stepU (es : List CatalogEntry) (T : List DBRow) :
    es.foldl (fun t e => t.map (applyUpdate e)) T = T.map (fun w => chainUpd w es) := by
  induction es generalizing T with
  | nil => simp [chainUpd]
  | cons e es ih =>
    show es.foldl _ (T.map (applyUpdate e)) = _
    rw [ih (T.map (applyUpdate e)), List.map_map]
    rfl

theorem foldl_step_eq_stepU (es : List CatalogEntry) (T : List DBRow)
    (h : ∀ e ∈ es, hasName T e.name = true) :
    es.foldl step T = es.foldl (fun t e => t.map (applyUpdate e)) T := by
  induction es generalizing T with
  | nil => rfl
  | cons e es ih =>
    have h1 : hasName T e.name = true := h e (List.mem_cons_self _ _)
    show es.foldl step (step T e) = _
    rw [step, if_pos h1]
    apply ih
    intro x hx
    rw [hasName_applyUpdate_map]
    exact h x (List.mem_cons_of_mem _ hx)

/-- C1 — confirmed.  If the table holds exactly one row `r` with an
incoming entry's name (the primary key guarantees uniqueness), and the
entry is the only one of the run's sequence bearing that name, then after
the run the table's row for that name carries the entry's `set_name`,
`rarity`, `colors`, `cmc` and `type_line`, while its `deck` cell is exactly
the value `r.deck` it held before the run. -/
theorem persister_update_preserves_deck (t : List DBRow) (es : List CatalogEntry)
    (e : CatalogEntry) (r : DBRow)
    (hrow : rowsFor t e.name = [r])
    (he : e ∈ es)
    (huniq : ∀ x ∈ es, x.name = e.name → x = e) :
    rowsFor (update_db t es) e.name =
      [{ name := e.name, set_name := e.set_name, rarity := e.rarity,
         colors := e.colors, cmc := e.cmc, type_line := e.type_line,
         deck := r.deck }] := by
  have hlast : lastMatch es e.name = some e := by
    rw [lastMatch]
    have hne : es.filter (fun x => x.name == e.name) ≠ [] := by
      intro hc
      have hmem : e ∈ es.filter (fun x => x.name == e.name) :=
        List.mem_filter.mpr ⟨he, beq_self_eq_true _⟩
      rw [hc] at hmem
      simp at hmem
    rw [List.getLast?_eq_getLast _ hne]
    have hmem := List.getLast_mem hne
    have h2 := List.mem_filter.mp hmem
    rw [huniq _ h2.1 (beq_iff_eq.mp h2.2)]
  have hr : r.name = e.name := by
    apply rowsFor_name (t := t) (n := e.name)
    rw [hrow]
    exact List.mem_cons_self _ _
  rw [rowsFor_update_db, hlast]
  show (if rowsFor t e.name = [] then [insertRow e]
      else (rowsFor t e.name).map (applyUpdate e)) = _
  rw [if_neg (by rw [hrow]; exact List.cons_ne_nil r []), hrow]
  show [applyUpdate e r] = _
  rw [applyUpdate_of_eq e r hr]

/-- The aggregated Bolt entry of the spec's end-to-end scenario. -/
def boltEntry : CatalogEntry :=
  ⟨"Bolt", "A, B", "common, uncommon", "R", "1", "Instant"⟩

/-- A pre-existing row for Bolt whose `deck` was set out of band. -/
def oldBoltRow : DBRow :=
  ⟨"Bolt", "A", "common", "R", "1", "Instant", some "Commander"⟩

/-- C1 — witness: reconciling the new Bolt entry against a table holding
the old Bolt row updates every non-`deck` column and keeps
`deck = "Commander"`. -/
theorem persister_update_preserves_deck_witness :
    rowsFor [oldBoltRow] boltEntry.name = [oldBoltRow] ∧
    boltEntry ∈ [boltEntry] ∧
    rowsFor (update_db [oldBoltRow] [boltEntry]) boltEntry.name =
      [{ name := boltEntry.name, set_name := boltEntry.set_name,
         rarity := boltEntry.rarity, colors := boltEntry.colors,
         cmc := boltEntry.cmc, type_line := boltEntry.type_line,
         deck := oldBoltRow.deck }] :=
  ⟨by decide, List.mem_cons_self _ _,
    persister_update_preserves_deck [oldBoltRow] [boltEntry] boltEntry oldBoltRow
      (by decide) (List.mem_cons_self _ _) (by decide)⟩

/-- C4 — confirmed.  For every starting table state and every entry
sequence, running the Persister twice with the identical sequence leaves
exactly the table state of one run: the second run finds every name
present, takes the update path for each row, and rewrites the values the
first run already wrote, touching no `deck` cell. -/
theorem persister_idempotent (t : List DBRow) (es : List CatalogEntry) :
    update_db (update_db t es) es = update_db t es := by
  have hnames : ∀ e ∈ es, hasName (update_db t es) e.name = true := by
    intro e he
    rw [hasName_update_db]
    have hany : es.any (fun x => x.name == e.name) = true :=
      List.any_eq_true.mpr ⟨e, he, beq_self_eq_true _⟩
    simp [hany]
  have hfix : ∀ w ∈ update_db t es, chainUpd w es = w := by
    intro w hw
    rw [chainUpd_eval]
    cases hl : lastMatch es w.name with
    | none => rfl
    | some e2 =>
      have hwr : w ∈ rowsFor (update_db t es) w.name := self_mem_rowsFor hw
      rw [rowsFor_update_db, hl] at hwr
      have hwr2 : w ∈ (if rowsFor t w.name = [] then [insertRow e2]
          else (rowsFor t w.name).map (applyUpdate e2)) := hwr
      by_cases hnil : rowsFor t w.name = []
      · rw [if_pos hnil] at hwr2
        have hw2 : w = insertRow e2 := by simpa using hwr2
        rw [hw2]
        exact applyUpdate_insertRow e2 e2 rfl
      · rw [if_neg hnil] at hwr2
        obtain ⟨w0, _, hw0eq⟩ := List.mem_map.mp hwr2
        rw [← hw0eq]
        exact applyUpdate_idem e2 w0
  show update_db (update_db t es) es = update_db t es
  rw [show update_db (update_db t es) es = es.foldl step (update_db t es) from rfl]
  rw [foldl_step_eq_stepU es (update_db t es) hnames, foldl_stepU]
  rw [List.map_congr_left hfix, List.map_id' _]

/-- C9 — counterexample.  Inserting an entry whose name is absent creates
a row whose `deck` cell is SQL NULL (the `INSERT` carries no `deck`
column and the column has no default), not the empty string: no row of the
resulting table has `deck = some ""`. -/
theorem insert_deck_not_empty_string_cex :
    update_db [] [boltEntry] =
      [⟨"Bolt", "A, B", "common, uncommon", "R", "1", "Instant", none⟩] ∧
    ∀ w ∈ update_db [] [boltEntry], w.deck ≠ some "" := by
  decide

/-- C9 — amended.  For an entry whose name is not yet present, the insert
path appends the entry's row, and that row's `deck` column is NULL (no
value) — not the empty string. -/
theorem insert_path_deck_null (t : List DBRow) (e : CatalogEntry)
    (h : hasName t e.name = false) :
    update_db t [e] = t ++ [insertRow e] ∧ (insertRow e).deck = none := by
  constructor
  · show step t e = _
    rw [step, if_neg (by simp [h])]
  · rfl

/-- C9 — witness for the amended theorem. -/
theorem insert_path_deck_null_witness :
    hasName [] boltEntry.name = false ∧
    (update_db [] [boltEntry] = [] ++ [insertRow boltEntry] ∧
      (insertRow boltEntry).deck = none) :=
  ⟨rfl, insert_path_deck_null [] boltEntry rfl⟩

/-- A second entry, reconciled after Bolt in the same run. -/
def bombEntry : CatalogEntry := ⟨"Bomb", "B", "rare", "B", "3", "Sorcery"⟩

/-- A storage layer that raises a fatal (non-IntegrityError) exception
while reconciling the Bomb row and succeeds on every other row. -/
def fatalOnBomb : CatalogEntry → Bool := fun e => e.name == "Bomb"

/-- C2 — counterexample.  Bolt is reconciled successfully before the fatal
failure on Bomb, yet the durable table after the run is empty: the single
`connection.commit()` sits after the loop, so the re-raised exception rolls
the whole run back and Bolt's row is NOT durably committed. -/
theorem midrun_failure_not_committed_cex :
    fatalOnBomb boltEntry = false ∧ fatalOnBomb bombEntry = true ∧
    update_dbF fatalOnBomb [] [boltEntry, bombEntry] = [] ∧
    ¬ ∃ w ∈ update_dbF fatalOnBomb [] [boltEntry, bombEntry], w.name = "Bolt" := by
  decide

theorem runRowsF_error (fatal : CatalogEntry → Bool) (es : List CatalogEntry)
    (h : ∃ e ∈ es, fatal e = true) :
    ∀ t, runRowsF fatal t es = .error () := by
  induction es with
  | nil => simp at h
  | cons e es ih =>
    intro t
    by_cases hfe : fatal e = true
    · rw [runRowsF, List.foldlM_cons, stepF, if_pos hfe]
      rfl
    · obtain ⟨x, hx, hfx⟩ := h
      rcases List.mem_cons.mp hx with rfl | hx2
      · exact absurd hfx hfe
      · rw [runRowsF, List.foldlM_cons, stepF, if_neg hfe]
        show runRowsF fatal (step t e) es = Except.error ()
        exact ih ⟨x, hx2, hfx⟩ (step t e)

/-- C2 — amended.  If reconciling any row of the run fails with a fatal
storage error, the run commits nothing: the durable table keeps exactly the
state it had before the run — even rows reconciled successfully earlier in
the same run are rolled back, because the one commit comes after the whole
loop (all-or-nothing per run, not per-row). -/
theorem fatal_error_rolls_back_run (fatal : CatalogEntry → Bool)
    (t : List DBRow) (es : List CatalogEntry)
    (h : ∃ e ∈ es, fatal e = true) :
    update_dbF fatal t es = t := by
  rw [update_dbF, runRowsF_error fatal es h t]

/-- C2 — witness for the amended theorem. -/
theorem fatal_error_rolls_back_run_witness :
    (∃ e ∈ [boltEntry, bombEntry], fatalOnBomb e = true) ∧
    update_dbF fatalOnBomb [] [boltEntry, bombEntry] = [] :=
  ⟨by decide,
    fatal_error_rolls_back_run fatalOnBomb [] [boltEntry, bombEntry] (by decide)⟩
